import Mathlib

/-!
Shallow embedding of the name overlay cache from `src/names/common.cpp`
(class `CNameCache` and `CNameData::fromScript`).

Modelling conventions:
* `std::map` / `std::set` become association lists / lists kept in strictly
  ascending key order; the C++ comparators become explicit boolean orders
  (`ltBytes` on byte strings, `ltExpire` on expiration-index keys).
* `assert` becomes an `Option` result: `none` is the fatal assertion failure.
* The process-wide flag `fNameHistory` is threaded as an explicit parameter.
-/

namespace Namecore

/-- Byte strings (`valtype = std::vector<unsigned char>` in the source). -/
abbrev valtype := List Nat

/-- Lexicographic order on byte strings, as `std::vector`'s `operator<`. -/
def ltBytes : valtype → valtype → Bool
  | [], [] => false
  | [], _ :: _ => true
  | _ :: _, [] => false
  | a :: as, b :: bs => if a < b then true else if b < a then false else ltBytes as bs

/-- Reference to a transaction output (external `COutPoint`: txid hash and index). -/
structure COutPoint where
  hash : Nat
  n : Nat
deriving DecidableEq, Repr

/-- Current state of one name (`CNameData` in `names/common.h`): the value,
registration height, creating outpoint and owning address. -/
structure CNameData where
  value : valtype
  nHeight : Nat
  prevout : COutPoint
  addr : valtype
deriving DecidableEq, Repr

/-- Modelled from the spec: `CNameHistory` (declared in `names/common.h`, not
among the sources here) is an ordered sequence of past name records for one
name, oldest first. Only its equality matters for the cache operations. -/
abbrev CNameHistory := List CNameData

/-- Expiration-index key (`ExpireEntry` in `names/common.h`): a height and a name. -/
structure ExpireEntry where
  nHeight : Nat
  name : valtype
deriving DecidableEq, Repr

/-- Modelled from the spec: the strict order on `ExpireEntry` (its `operator<`
lives in `names/common.h`, not among the sources here): primarily by height,
then lexicographically by name bytes. -/
def ltExpire (a b : ExpireEntry) : Bool :=
  if a.nHeight < b.nHeight then true
  else if b.nHeight < a.nHeight then false
  else ltBytes a.name b.name

/-- Modelled from the spec: the decoded name-operation payload (`CNameScript`
from `script/names.h`, not among the sources here).  `isAnyUpdate` tells
whether the operation is update-class (creation or update, carrying a value);
`getOpValue` and `getAddress` extract the payload's value and address. -/
structure CNameScript where
  anyUpdate : Bool
  opValue : valtype
  address : valtype
deriving DecidableEq, Repr

/- ** Generic ordered-map helpers (the embedding of `std::map` / `std::set`) ** -/

/-- Insert (or overwrite) a key/value pair into an association list kept in
strictly ascending key order by `lt`. Embeds `std::map` insertion and
`operator[]` assignment. -/
def insertSorted {α β : Type} (lt : α → α → Bool) (k : α) (v : β) :
    List (α × β) → List (α × β)
  | [] => [(k, v)]
  | (k', v') :: rest =>
    if lt k k' then (k, v) :: (k', v') :: rest
    else if lt k' k then (k', v') :: insertSorted lt k v rest
    else (k, v) :: rest

/-- Insert a key into a list kept in strictly ascending order by `lt`.
Embeds `std::set::insert`. -/
def insertSetSorted {α : Type} (lt : α → α → Bool) (k : α) : List α → List α
  | [] => [k]
  | k' :: rest =>
    if lt k k' then k :: k' :: rest
    else if lt k' k then k' :: insertSetSorted lt k rest
    else k' :: rest

/-- Look up a key in an association list. Embeds `std::map::find`. -/
def lookupKey {α β : Type} [DecidableEq α] (k : α) : List (α × β) → Option β
  | [] => none
  | (k', v) :: rest => if k = k' then some v else lookupKey k rest

/-- Remove a key from an association list. Embeds `std::map::erase`. -/
def eraseKey {α β : Type} [DecidableEq α] (k : α) (l : List (α × β)) :
    List (α × β) :=
  l.filter (fun p => !decide (p.1 = k))

/-- Remove an element from a set list. Embeds `std::set::erase`. -/
def eraseSet {α : Type} [DecidableEq α] (k : α) (l : List α) : List α :=
  l.filter (fun a => !decide (a = k))

/-- Drop the entries strictly below `k`: on a sorted list this is exactly
`std::map::lower_bound`. -/
def lowerBound {α β : Type} (lt : α → α → Bool) (k : α) :
    List (α × β) → List (α × β)
  | [] => []
  | (k', v) :: rest =>
    if lt k' k then lowerBound lt k rest else (k', v) :: rest

/- ** CNameData ** -/

/-- `CNameData::fromScript`: build a record from a decoded name operation.
The `assert (script.isAnyUpdate ())` is the `none` branch; otherwise every
field is populated from the inputs, with no further validation. -/
def CNameData.fromScript (h : Nat) (out : COutPoint) (script : CNameScript) :
    Option CNameData :=
  if script.anyUpdate then
    some { value := script.opValue, nHeight := h, prevout := out,
           addr := script.address }
  else
    none

/- ** CNameCache ** -/

/-- The overlay cache (`CNameCache`): pending record changes, deletions,
history updates and expiration-index edits.  Each map is an association list
in ascending key order. -/
structure CNameCache where
  entries : List (valtype × CNameData)
  deleted : List valtype
  history : List (valtype × CNameHistory)
  expireIndex : List (ExpireEntry × Bool)
deriving DecidableEq, Repr

namespace CNameCache

/-- The empty cache. -/
def empty : CNameCache := ⟨[], [], [], []⟩

/-- `CNameCache::get`: look only in `entries`, ignoring `deleted`. -/
def get (c : CNameCache) (name : valtype) : Option CNameData :=
  lookupKey name c.entries

/-- `CNameCache::getHistory`: `assert (fNameHistory)` then look in `history`.
The outer `none` is the assertion failure; the inner option is found / not found. -/
def getHistory (fNameHistory : Bool) (c : CNameCache) (name : valtype) :
    Option (Option CNameHistory) :=
  if fNameHistory then some (lookupKey name c.history) else none

/-- `CNameCache::set`: erase the deleted mark, then insert or overwrite the entry. -/
def set (c : CNameCache) (name : valtype) (data : CNameData) : CNameCache :=
  { c with
    deleted := eraseSet name c.deleted
    entries := insertSorted ltBytes name data c.entries }

/-- `CNameCache::setHistory`: `assert (fNameHistory)` then insert or overwrite. -/
def setHistory (fNameHistory : Bool) (c : CNameCache) (name : valtype)
    (data : CNameHistory) : Option CNameCache :=
  if fNameHistory then
    some { c with history := insertSorted ltBytes name data c.history }
  else
    none

/-- `CNameCache::remove`: erase from `entries`, insert into `deleted`. -/
def remove (c : CNameCache) (name : valtype) : CNameCache :=
  { c with
    entries := eraseKey name c.entries
    deleted := insertSetSorted ltBytes name c.deleted }

/-- `CNameCache::addExpireIndex`: `expireIndex[(height, name)] = true`. -/
def addExpireIndex (c : CNameCache) (name : valtype) (height : Nat) : CNameCache :=
  { c with expireIndex := insertSorted ltExpire ⟨height, name⟩ true c.expireIndex }

/-- `CNameCache::removeExpireIndex`: `expireIndex[(height, name)] = false`. -/
def removeExpireIndex (c : CNameCache) (name : valtype) (height : Nat) : CNameCache :=
  { c with expireIndex := insertSorted ltExpire ⟨height, name⟩ false c.expireIndex }

/-- One toggle of `CNameCache::updateNamesForHeight`: a `true` flag inserts
the entry's name into the caller's set, a `false` flag erases it. -/
def toggleExpire (names : List valtype) (p : ExpireEntry × Bool) : List valtype :=
  if p.2 then insertSetSorted ltBytes p.1.name names
  else eraseSet p.1.name names

/-- The loop body of `CNameCache::updateNamesForHeight`: walk the entries from
the lower bound; `assert (cur.nHeight >= nHeight)` is the `none` branch, the
`break` on `cur.nHeight > nHeight` stops the walk, and each entry at the exact
height toggles the name in the caller's set. -/
def updateLoop (nHeight : Nat) (names : List valtype) :
    List (ExpireEntry × Bool) → Option (List valtype)
  | [] => some names
  | (cur, flag) :: rest =>
    if cur.nHeight < nHeight then none
    else if nHeight < cur.nHeight then some names
    else updateLoop nHeight (toggleExpire names (cur, flag)) rest

/-- `CNameCache::updateNamesForHeight`: seek to the first entry with key at
least `(nHeight, "")` and process the run of entries at exactly `nHeight`. -/
def updateNamesForHeight (c : CNameCache) (nHeight : Nat)
    (names : List valtype) : Option (List valtype) :=
  updateLoop nHeight names
    (lowerBound ltExpire ⟨nHeight, []⟩ c.expireIndex)

/-- The history loop of `CNameCache::applyTo (CNameCache&)`: apply each
history item through `setHistory`, which can assert-fail. -/
def applyHistory (fNameHistory : Bool) :
    List (valtype × CNameHistory) → CNameCache → Option CNameCache
  | [], c => some c
  | (n, hl) :: rest, c =>
    match setHistory fNameHistory c n hl with
    | none => none
    | some c' => applyHistory fNameHistory rest c'

/-- `CNameCache::applyTo (CNameCache&)`: fold this cache's `entries` (via
`set`), then `deleted` (via `remove`), then `history` (via `setHistory`),
then write the `expireIndex` pairs into the target's map. -/
def applyTo (fNameHistory : Bool) (src tgt : CNameCache) : Option CNameCache :=
  let t1 := src.entries.foldl (fun c kv => set c kv.1 kv.2) tgt
  let t2 := src.deleted.foldl (fun c n => remove c n) t1
  match applyHistory fNameHistory src.history t2 with
  | none => none
  | some t3 =>
    some { t3 with
           expireIndex :=
             src.expireIndex.foldl
               (fun m kv => insertSorted ltExpire kv.1 kv.2 m)
               t3.expireIndex }

end CNameCache

/-- One mutation issued to the authenticated trie (`CUnoTrie::Set` /
`CUnoTrie::Delete`), keyed by the raw name bytes, with the `expanded` flag
forwarded verbatim. -/
inductive TrieOp : Type
  | setOp (key : valtype) (data : CNameData) (expanded : Bool)
  | delOp (key : valtype) (expanded : Bool)
deriving DecidableEq, Repr

/-- The key a trie operation touches. -/
def TrieOp.key : TrieOp → valtype
  | .setOp k _ _ => k
  | .delOp k _ => k

/-- Whether a trie operation is a `Set`. -/
def TrieOp.isSetOp : TrieOp → Bool
  | .setOp _ _ _ => true
  | .delOp _ _ => false

/-- `CNameCache::applyTo (CUnoTrie&, bool)`: the sequence of trie calls the
terminal flush issues — one `Set` per `entries` item in iteration order, then
one `Delete` per `deleted` item in iteration order. -/
def CNameCache.applyToTrie (c : CNameCache) (expanded : Bool) : List TrieOp :=
  c.entries.map (fun kv => TrieOp.setOp kv.1 kv.2 expanded)
    ++ c.deleted.map (fun n => TrieOp.delOp n expanded)

/- ** State predicates ** -/

/-- The `entries` map is in strictly ascending key order (the `std::map`
representation invariant). -/
abbrev entriesSorted (c : CNameCache) : Prop :=
  c.entries.Pairwise (fun p q => ltBytes p.1 q.1 = true)

/-- The `deleted` set is in strictly ascending order. -/
abbrev deletedSorted (c : CNameCache) : Prop :=
  c.deleted.Pairwise (fun a b => ltBytes a b = true)

/-- The `expireIndex` map is in strictly ascending key order. -/
abbrev expireSorted (c : CNameCache) : Prop :=
  c.expireIndex.Pairwise (fun p q => ltExpire p.1 q.1 = true)

/-- The invariant that no name is simultaneously a key of `entries` and a
member of `deleted`. -/
abbrev exclusive (c : CNameCache) : Prop :=
  ∀ n ∈ c.entries.map Prod.fst, n ∉ c.deleted

/-- Whether a name occurs in any of the four containers of a cache (as an
entry key, a deleted name, a history key, or the name part of an
expiration-index key). -/
abbrev touches (c : CNameCache) (n : valtype) : Prop :=
  n ∈ c.entries.map Prod.fst ∨ n ∈ c.deleted ∨ n ∈ c.history.map Prod.fst
    ∨ ∃ p ∈ c.expireIndex, p.1.name = n

/- ** The mutation language of the cache (for invariant claims) ** -/

/-- One public mutation or query of the cache interface. -/
inductive CacheOp : Type
  | opSet (n : valtype) (d : CNameData)
  | opRemove (n : valtype)
  | opSetHistory (n : valtype) (hl : CNameHistory)
  | opAddExpire (n : valtype) (h : Nat)
  | opRemoveExpire (n : valtype) (h : Nat)
  | opUpdateNames (h : Nat) (names : List valtype)
  | opApplyFrom (src : CNameCache)

/-- Run one operation on a cache; `none` is a fatal assertion failure.
`updateNamesForHeight` is `const` in the source and leaves the cache
unchanged; `opApplyFrom src` merges `src` into the cache via `applyTo`. -/
def runOp (fNameHistory : Bool) (c : CNameCache) : CacheOp → Option CNameCache
  | .opSet n d => some (CNameCache.set c n d)
  | .opRemove n => some (CNameCache.remove c n)
  | .opSetHistory n hl => CNameCache.setHistory fNameHistory c n hl
  | .opAddExpire n h => some (CNameCache.addExpireIndex c n h)
  | .opRemoveExpire n h => some (CNameCache.removeExpireIndex c n h)
  | .opUpdateNames h names =>
    (CNameCache.updateNamesForHeight c h names).map (fun _ => c)
  | .opApplyFrom src => CNameCache.applyTo fNameHistory src c

/-- Run a sequence of operations, stopping at the first assertion failure. -/
def run (fNameHistory : Bool) : List CacheOp → CNameCache → Option CNameCache
  | [], c => some c
  | op :: ops, c =>
    match runOp fNameHistory c op with
    | none => none
    | some c' => run fNameHistory ops c'

/- ** Concrete example data (used to instantiate the theorems) ** -/

/-- An example record. -/
def recA : CNameData := ⟨[10], 5, ⟨1, 0⟩, [7]⟩

/-- Another example record. -/
def recB : CNameData := ⟨[11], 6, ⟨2, 1⟩, [8]⟩

/-- A cache built by one order of mutations. -/
def cacheA : CNameCache :=
  CNameCache.remove
    (CNameCache.set (CNameCache.set CNameCache.empty [1] recA) [2] recB) [3]

/-- A cache built by another order of the same mutations. -/
def cacheB : CNameCache :=
  CNameCache.set
    (CNameCache.remove (CNameCache.set CNameCache.empty [2] recB) [3]) [1] recA

/-- A cache with expiration-index entries at two heights. -/
def cacheE : CNameCache :=
  CNameCache.addExpireIndex
    (CNameCache.addExpireIndex CNameCache.empty [4] 50) [5] 50

/-- An example operation sequence exercising every kind of mutation. -/
def opsX : List CacheOp :=
  [CacheOp.opSet [1] recA, CacheOp.opRemove [2], CacheOp.opSet [2] recB,
   CacheOp.opAddExpire [1] 9, CacheOp.opUpdateNames 9 [],
   CacheOp.opRemove [1], CacheOp.opApplyFrom cacheA]

/-- The cache produced by running `opsX` from the empty cache. -/
def cacheR : CNameCache :=
  ⟨[([1], recA), ([2], recB)], [[3]], [], [(⟨9, [1]⟩, true)]⟩

/-- The cache produced by merging `cacheE` onto `cacheA`. -/
def cacheM : CNameCache :=
  ⟨[([1], recA), ([2], recB)], [[3]], [],
   [(⟨50, [4]⟩, true), (⟨50, [5]⟩, true)]⟩

/- ** Order lemmas ** -/

/-- `ltBytes` is irreflexive. -/
theorem ltBytes_irrefl : ∀ a : valtype, ltBytes a a = false
  | [] => rfl
  | a :: as => by simp [ltBytes, Nat.lt_irrefl, ltBytes_irrefl as]

/-- `ltBytes` is asymmetric. -/
theorem ltBytes_asymm : ∀ a b : valtype,
    ltBytes a b = true → ltBytes b a = true → False
  | [], [] => by simp [ltBytes]
  | [], _ :: _ => by simp [ltBytes]
  | _ :: _, [] => by simp [ltBytes]
  | a :: as, b :: bs => by
    rcases Nat.lt_trichotomy a b with h | h | h
    · simp [ltBytes, h, Nat.lt_asymm h]
    · subst h
      simp only [ltBytes, Nat.lt_irrefl, if_false]
      exact ltBytes_asymm as bs
    · simp [ltBytes, h, Nat.lt_asymm h]

/-- Nothing is lexicographically below the empty byte string. -/
theorem ltBytes_nil_right : ∀ a : valtype, ltBytes a [] = false
  | [] => rfl
  | _ :: _ => rfl

/-- `ltBytes` is total on distinct byte strings. -/
theorem ltBytes_total : ∀ a b : valtype,
    a = b ∨ ltBytes a b = true ∨ ltBytes b a = true
  | [], [] => Or.inl rfl
  | [], _ :: _ => Or.inr (Or.inl rfl)
  | _ :: _, [] => Or.inr (Or.inr rfl)
  | a :: as, b :: bs => by
    rcases Nat.lt_trichotomy a b with h | h | h
    · exact Or.inr (Or.inl (by simp [ltBytes, h]))
    · subst h
      rcases ltBytes_total as bs with h | h | h
      · exact Or.inl (by rw [h])
      · exact Or.inr (Or.inl (by simp [ltBytes]; exact h))
      · exact Or.inr (Or.inr (by simp [ltBytes]; exact h))
    · exact Or.inr (Or.inr (by simp [ltBytes, h]))

/-- `ltExpire` is irreflexive. -/
theorem ltExpire_irrefl (a : ExpireEntry) : ltExpire a a = false := by
  simp [ltExpire, ltBytes_irrefl]

/-- `ltExpire` is asymmetric. -/
theorem ltExpire_asymm {a b : ExpireEntry} :
    ltExpire a b = true → ltExpire b a = true → False := by
  rcases Nat.lt_trichotomy a.nHeight b.nHeight with h | h | h
  · simp [ltExpire, h, Nat.lt_asymm h]
  · simp only [ltExpire, h, Nat.lt_irrefl, if_false]
    exact ltBytes_asymm _ _
  · simp [ltExpire, h, Nat.lt_asymm h]

/-- `ltExpire` is total on distinct keys. -/
theorem ltExpire_total : ∀ a b : ExpireEntry,
    a = b ∨ ltExpire a b = true ∨ ltExpire b a = true := by
  intro a b
  rcases Nat.lt_trichotomy a.nHeight b.nHeight with h | h | h
  · exact Or.inr (Or.inl (by simp [ltExpire, h]))
  · rcases ltBytes_total a.name b.name with h' | h' | h'
    · refine Or.inl ?_
      cases a; cases b; simp_all
    · exact Or.inr (Or.inl (by simp [ltExpire, h, h']))
    · exact Or.inr (Or.inr (by simp [ltExpire, h, h']))
  · exact Or.inr (Or.inr (by simp [ltExpire, h]))

/-- `ltExpire` orders primarily by height. -/
theorem ltExpire_height_le {a b : ExpireEntry} (h : ltExpire a b = true) :
    a.nHeight ≤ b.nHeight := by
  unfold ltExpire at h
  split_ifs at h with h1 h2 <;> omega

/-- A key is below the seek key `(h, "")` exactly when its height is below `h`. -/
theorem ltExpire_seek {e : ExpireEntry} {h : Nat} :
    ltExpire e ⟨h, []⟩ = true ↔ e.nHeight < h := by
  show (if e.nHeight < h then true
        else if h < e.nHeight then false else ltBytes e.name []) = true
      ↔ e.nHeight < h
  split_ifs with h1 h2 <;> simp [ltBytes_nil_right] <;> omega

/- ** Generic ordered-list lemmas ** -/

/-- Membership after `insertSorted`: the new pair or a pair of the original list. -/
theorem mem_insertSorted {α β : Type} {lt : α → α → Bool} {k : α} {v : β} :
    ∀ {l : List (α × β)} {p : α × β},
      p ∈ insertSorted lt k v l → p = (k, v) ∨ p ∈ l := by
  intro l
  induction l with
  | nil => intro p hp; simpa [insertSorted] using hp
  | cons q rest ih =>
    obtain ⟨k', v'⟩ := q
    intro p hp
    by_cases h1 : lt k k' = true
    · simp only [insertSorted, if_pos h1, List.mem_cons] at hp
      simp only [List.mem_cons]
      tauto
    · by_cases h2 : lt k' k = true
      · simp only [insertSorted, if_neg h1, if_pos h2, List.mem_cons] at hp
        simp only [List.mem_cons]
        rcases hp with hp | hp
        · tauto
        · rcases ih hp with h | h <;> tauto
      · simp only [insertSorted, if_neg h1, if_neg h2, List.mem_cons] at hp
        simp only [List.mem_cons]
        tauto

/-- Looking up the key just inserted by `insertSorted` yields the new value. -/
theorem lookup_insertSorted_self {α β : Type} [DecidableEq α] {lt : α → α → Bool}
    (hirr : ∀ a, lt a a = false) (k : α) (v : β) :
    ∀ l : List (α × β), lookupKey k (insertSorted lt k v l) = some v := by
  intro l
  induction l with
  | nil => simp [insertSorted, lookupKey]
  | cons q rest ih =>
    obtain ⟨k', v'⟩ := q
    by_cases h1 : lt k k' = true
    · simp [insertSorted, h1, lookupKey]
    · by_cases h2 : lt k' k = true
      · have hne : k ≠ k' := by
          intro he
          rw [he, hirr k'] at h2
          exact Bool.false_ne_true h2
        simp [insertSorted, h1, h2, lookupKey, hne, ih]
      · simp [insertSorted, h1, h2, lookupKey]

/-- `insertSorted` of one key does not change lookups of another (for a total
strict order, where key equivalence is equality). -/
theorem lookup_insertSorted_ne {α β : Type} [DecidableEq α] {lt : α → α → Bool}
    (htot : ∀ a b : α, a = b ∨ lt a b = true ∨ lt b a = true)
    {m k : α} (hne : m ≠ k) (v : β) :
    ∀ l : List (α × β), lookupKey m (insertSorted lt k v l) = lookupKey m l := by
  intro l
  induction l with
  | nil => simp [insertSorted, lookupKey, hne]
  | cons q rest ih =>
    obtain ⟨k', v'⟩ := q
    by_cases h1 : lt k k' = true
    · simp [insertSorted, h1, lookupKey, hne]
    · by_cases h2 : lt k' k = true
      · simp [insertSorted, h1, h2, lookupKey, ih]
      · have hkk : k = k' := by
          rcases htot k k' with h | h | h
          · exact h
          · exact absurd h h1
          · exact absurd h h2
        subst hkk
        simp [insertSorted, h1, h2, lookupKey, hne]

/-- Membership after `insertSetSorted`: the new element or an old one. -/
theorem mem_insertSetSorted {α : Type} {lt : α → α → Bool} {k : α} :
    ∀ {l : List α} {a : α}, a ∈ insertSetSorted lt k l → a = k ∨ a ∈ l := by
  intro l
  induction l with
  | nil => intro a hp; simpa [insertSetSorted] using hp
  | cons k' rest ih =>
    intro a hp
    by_cases h1 : lt k k' = true
    · simp only [insertSetSorted, if_pos h1, List.mem_cons] at hp
      simp only [List.mem_cons]
      tauto
    · by_cases h2 : lt k' k = true
      · simp only [insertSetSorted, if_neg h1, if_pos h2, List.mem_cons] at hp
        simp only [List.mem_cons]
        rcases hp with hp | hp
        · tauto
        · rcases ih hp with h | h <;> tauto
      · simp only [insertSetSorted, if_neg h1, if_neg h2, List.mem_cons] at hp
        simp only [List.mem_cons]
        tauto

/-- `insertSetSorted` of one element does not change membership of another. -/
theorem mem_insertSetSorted_ne {α : Type} {lt : α → α → Bool} {m k : α}
    (hne : m ≠ k) :
    ∀ l : List α, (m ∈ insertSetSorted lt k l ↔ m ∈ l) := by
  intro l
  induction l with
  | nil => simp [insertSetSorted, hne]
  | cons k' rest ih =>
    by_cases h1 : lt k k' = true
    · simp [insertSetSorted, h1, hne]
    · by_cases h2 : lt k' k = true
      · simp [insertSetSorted, h1, h2, ih]
      · simp [insertSetSorted, h1, h2]

/-- Membership in `eraseSet`. -/
theorem mem_eraseSet {α : Type} [DecidableEq α] {a k : α} {l : List α} :
    a ∈ eraseSet k l ↔ a ∈ l ∧ a ≠ k := by
  simp [eraseSet, List.mem_filter]

/-- A lookup of a key other than the erased one is unchanged by `eraseKey`. -/
theorem lookup_eraseKey_ne {α β : Type} [DecidableEq α] {n k : α} (hne : n ≠ k) :
    ∀ l : List (α × β), lookupKey n (eraseKey k l) = lookupKey n l := by
  intro l
  induction l with
  | nil => rfl
  | cons q rest ih =>
    obtain ⟨k', v'⟩ := q
    by_cases h : k' = k
    · have hstep : eraseKey k ((k', v') :: rest) = eraseKey k rest := by
        simp [eraseKey, h]
      have hne' : n ≠ k' := fun he => hne (he.trans h)
      rw [hstep, ih]
      simp [lookupKey, hne']
    · have hstep : eraseKey k ((k', v') :: rest) = (k', v') :: eraseKey k rest := by
        simp [eraseKey, h]
      rw [hstep]
      simp [lookupKey, ih]

/-- Looking up the erased key yields nothing. -/
theorem lookup_eraseKey_self {α β : Type} [DecidableEq α] (k : α)
    (l : List (α × β)) : lookupKey k (eraseKey k l) = none := by
  induction l with
  | nil => rfl
  | cons q rest ih =>
    obtain ⟨k', v'⟩ := q
    by_cases h : k' = k
    · have hstep : eraseKey k ((k', v') :: rest) = eraseKey k rest := by
        simp [eraseKey, h]
      rw [hstep, ih]
    · have hstep : eraseKey k ((k', v') :: rest) = (k', v') :: eraseKey k rest := by
        simp [eraseKey, h]
      have hkk : ¬ (k = k') := fun he => h he.symm
      rw [hstep]
      simp [lookupKey, hkk, ih]

/-- A lookup fails exactly when the key is not among the list's keys. -/
theorem lookupKey_eq_none {α β : Type} [DecidableEq α] {k : α} :
    ∀ {l : List (α × β)}, lookupKey k l = none ↔ k ∉ l.map Prod.fst := by
  intro l
  induction l with
  | nil => simp [lookupKey]
  | cons q rest ih =>
    obtain ⟨k', v'⟩ := q
    by_cases h : k = k' <;> simp [lookupKey, h, ih]

/-- With unique keys, a successful lookup is exactly membership of the pair. -/
theorem lookupKey_some_iff {α β : Type} [DecidableEq α] {k : α} {v : β} :
    ∀ {l : List (α × β)}, (l.map Prod.fst).Nodup →
      (lookupKey k l = some v ↔ (k, v) ∈ l) := by
  intro l
  induction l with
  | nil => simp [lookupKey]
  | cons q rest ih =>
    obtain ⟨k', v'⟩ := q
    intro hnd
    simp only [List.map_cons, List.nodup_cons] at hnd
    by_cases h : k = k'
    · subst h
      constructor
      · intro hv
        have hv' : v' = v := by simpa [lookupKey] using hv
        subst hv'
        exact List.mem_cons_self _ _
      · intro hv
        rcases List.mem_cons.mp hv with h' | h'
        · have hvv : v = v' := congrArg Prod.snd h'
          simp [lookupKey, hvv]
        · exact absurd (List.mem_map_of_mem Prod.fst h') hnd.1
    · simp [lookupKey, h, ih hnd.2]

/-- Two strictly sorted lists with the same members are equal. -/
theorem pairwise_eq_of_mem_iff {α : Type} {R : α → α → Prop}
    (hasym : ∀ a b, R a b → R b a → False) :
    ∀ (l1 l2 : List α), l1.Pairwise R → l2.Pairwise R →
      (∀ a, a ∈ l1 ↔ a ∈ l2) → l1 = l2
  | [], [], _, _, _ => rfl
  | [], y :: ys, _, _, hmem =>
    absurd ((hmem y).2 (List.mem_cons_self y ys)) (List.not_mem_nil y)
  | x :: xs, [], _, _, hmem =>
    absurd ((hmem x).1 (List.mem_cons_self x xs)) (List.not_mem_nil x)
  | x :: xs, y :: ys, h1, h2, hmem => by
    have hx2 : x ∈ y :: ys := (hmem x).1 (List.mem_cons_self x xs)
    have hy1 : y ∈ x :: xs := (hmem y).2 (List.mem_cons_self y ys)
    have hxy : x = y := by
      rcases List.mem_cons.mp hx2 with h | hxys
      · exact h
      rcases List.mem_cons.mp hy1 with h | hyxs
      · exact h.symm
      exact absurd (List.rel_of_pairwise_cons h1 hyxs)
        (fun hr => hasym _ _ hr (List.rel_of_pairwise_cons h2 hxys))
    subst hxy
    have htail : ∀ a, a ∈ xs ↔ a ∈ ys := by
      intro a
      constructor
      · intro ha
        rcases List.mem_cons.mp ((hmem a).1 (List.mem_cons_of_mem x ha)) with h | h
        · subst h
          exact absurd (List.rel_of_pairwise_cons h1 ha)
            (fun hr => hasym _ _ hr hr)
        · exact h
      · intro ha
        rcases List.mem_cons.mp ((hmem a).2 (List.mem_cons_of_mem x ha)) with h | h
        · subst h
          exact absurd (List.rel_of_pairwise_cons h2 ha)
            (fun hr => hasym _ _ hr hr)
        · exact h
    exact congrArg (List.cons x)
      (pairwise_eq_of_mem_iff hasym xs ys (List.pairwise_cons.mp h1).2
        (List.pairwise_cons.mp h2).2 htail)

/-- A strictly sorted list has no duplicates. -/
theorem nodup_of_pairwise_lt {α : Type} {lt : α → α → Bool}
    (hirr : ∀ a, lt a a = false) {l : List α}
    (h : l.Pairwise (fun a b => lt a b = true)) : l.Nodup :=
  h.imp (fun hab => by
    intro he
    subst he
    rw [hirr] at hab
    exact Bool.false_ne_true hab)

/-- Counting occurrences of an element in a duplicate-free list. -/
theorem countP_eq_of_nodup {α : Type} [DecidableEq α] (n : α) :
    ∀ l : List α, l.Nodup →
      l.countP (fun a => decide (a = n)) = if n ∈ l then 1 else 0 := by
  intro l
  induction l with
  | nil => simp
  | cons a rest ih =>
    intro hnd
    simp only [List.nodup_cons] at hnd
    by_cases h : a = n
    · subst h
      rw [List.countP_cons]
      simp [ih hnd.2, hnd.1]
    · rw [List.countP_cons]
      simp [h, ih hnd.2, Ne.symm h]

/- ** Lemmas about the expiration-index scan ** -/

/-- `lowerBound` returns a suffix of its input. -/
theorem lowerBound_suffix {α β : Type} (lt : α → α → Bool) (k : α) :
    ∀ l : List (α × β), lowerBound lt k l <:+ l := by
  intro l
  induction l with
  | nil => exact List.suffix_refl []
  | cons q rest ih =>
    obtain ⟨k', v'⟩ := q
    by_cases h : lt k' k = true
    · simp only [lowerBound, if_pos h]
      exact ih.trans (List.suffix_cons (k', v') rest)
    · simp only [lowerBound, if_neg h]
      exact List.suffix_refl _

/-- Seeking to `(h, "")` drops no entry of height exactly `h`. -/
theorem lowerBound_filter_height {h : Nat} :
    ∀ l : List (ExpireEntry × Bool),
      (lowerBound ltExpire ⟨h, []⟩ l).filter (fun p => decide (p.1.nHeight = h))
        = l.filter (fun p => decide (p.1.nHeight = h)) := by
  intro l
  induction l with
  | nil => rfl
  | cons q rest ih =>
    obtain ⟨e, flag⟩ := q
    by_cases hq : ltExpire e ⟨h, []⟩ = true
    · have hlt : e.nHeight < h := ltExpire_seek.mp hq
      have hne : ¬ (e.nHeight = h) := by omega
      simp only [lowerBound, if_pos hq, ih]
      simp [List.filter_cons, hne]
    · simp only [lowerBound, if_neg hq]

/-- On a sorted index, every entry at or after the `(h, "")` lower bound has
height at least `h` — the scan's assertion. -/
theorem lowerBound_height_ge {h : Nat} :
    ∀ l : List (ExpireEntry × Bool),
      l.Pairwise (fun p q => ltExpire p.1 q.1 = true) →
      ∀ p ∈ lowerBound ltExpire ⟨h, []⟩ l, h ≤ p.1.nHeight := by
  intro l
  induction l with
  | nil => intro _ p hp; simp [lowerBound] at hp
  | cons q rest ih =>
    obtain ⟨e, flag⟩ := q
    intro hpw p hp
    by_cases hq : ltExpire e ⟨h, []⟩ = true
    · simp only [lowerBound, if_pos hq] at hp
      exact ih (List.pairwise_cons.mp hpw).2 p hp
    · simp only [lowerBound, if_neg hq] at hp
      have hhead : h ≤ e.nHeight := by
        rcases Nat.lt_or_ge e.nHeight h with hlt | hge
        · exact absurd (ltExpire_seek.mpr hlt) hq
        · exact hge
      rcases List.mem_cons.mp hp with h' | h'
      · rw [h']
        exact hhead
      · have hrel := List.rel_of_pairwise_cons hpw h'
        have h3 : e.nHeight ≤ p.1.nHeight := ltExpire_height_le hrel
        omega

/-- On a sorted run whose entries all have height at least `h`, the scan loop
performs, in order, exactly the toggles of the entries at height `h`. -/
theorem updateLoop_eq_filter {h : Nat} :
    ∀ (l : List (ExpireEntry × Bool)) (S : List valtype),
      l.Pairwise (fun p q => ltExpire p.1 q.1 = true) →
      (∀ p ∈ l, h ≤ p.1.nHeight) →
      CNameCache.updateLoop h S l
        = some ((l.filter (fun p => decide (p.1.nHeight = h))).foldl
            CNameCache.toggleExpire S) := by
  intro l
  induction l with
  | nil => intro S _ _; rfl
  | cons q rest ih =>
    obtain ⟨e, flag⟩ := q
    intro S hpw hge
    have hhead : h ≤ e.nHeight := hge (e, flag) (List.mem_cons_self _ _)
    by_cases heq : e.nHeight = h
    · have h1 : ¬ (e.nHeight < h) := by omega
      have h2 : ¬ (h < e.nHeight) := by omega
      simp only [CNameCache.updateLoop, if_neg h1, if_neg h2]
      rw [ih (CNameCache.toggleExpire S (e, flag)) (List.pairwise_cons.mp hpw).2
        (fun p hp => hge p (List.mem_cons_of_mem _ hp))]
      simp [List.filter_cons, heq]
    · have h1 : ¬ (e.nHeight < h) := by omega
      have h2 : h < e.nHeight := by omega
      simp only [CNameCache.updateLoop, if_neg h1, if_pos h2]
      have hfil : (((e, flag) :: rest).filter
          (fun p => decide (p.1.nHeight = h))) = [] := by
        rw [List.filter_eq_nil_iff]
        intro p hp
        rcases List.mem_cons.mp hp with h' | h'
        · rw [h']
          simpa using heq
        · have hrel := List.rel_of_pairwise_cons hpw h'
          have h3 : e.nHeight ≤ p.1.nHeight := ltExpire_height_le hrel
          simp only [decide_eq_true_eq]
          omega
      rw [hfil]
      rfl

/-- On a sorted index, `updateNamesForHeight` succeeds and performs, in
ascending key order, exactly the toggles recorded at the requested height. -/
theorem updateNamesForHeight_eq_filter {c : CNameCache} {h : Nat}
    (hs : expireSorted c) (S : List valtype) :
    c.updateNamesForHeight h S
      = some ((c.expireIndex.filter (fun p => decide (p.1.nHeight = h))).foldl
          CNameCache.toggleExpire S) := by
  have hs' : c.expireIndex.Pairwise (fun p q => ltExpire p.1 q.1 = true) := hs
  unfold CNameCache.updateNamesForHeight
  rw [updateLoop_eq_filter _ S
    (hs'.sublist (lowerBound_suffix ltExpire ⟨h, []⟩ c.expireIndex).sublist)
    (lowerBound_height_ge c.expireIndex hs'),
    lowerBound_filter_height]

/-- Counting pairs with a given key in a list with duplicate-free keys. -/
theorem countP_key_eq_of_nodup {α β : Type} [DecidableEq α] (n : α) :
    ∀ l : List (α × β), (l.map Prod.fst).Nodup →
      l.countP (fun p => decide (p.1 = n))
        = if n ∈ l.map Prod.fst then 1 else 0 := by
  intro l
  induction l with
  | nil => simp
  | cons q rest ih =>
    obtain ⟨k, v⟩ := q
    intro hnd
    simp only [List.map_cons, List.nodup_cons] at hnd
    by_cases h : k = n
    · subst h
      rw [List.countP_cons]
      have hz : rest.countP (fun p => decide (p.1 = k)) = 0 := by
        rw [List.countP_eq_zero]
        intro p hp
        simp only [decide_eq_true_eq]
        intro hpk
        exact hnd.1 (hpk ▸ List.mem_map_of_mem Prod.fst hp)
      simp [hz]
    · rw [List.countP_cons, ih hnd.2]
      by_cases hm : n ∈ List.map Prod.fst rest
      · simp [hm, h, List.mem_cons]
      · simp [hm, h, List.mem_cons, Ne.symm h]

/- ** Exclusivity preservation and merge frame lemmas ** -/

/-- `set` preserves the entries/deleted exclusivity invariant. -/
theorem exclusive_set {c : CNameCache} (hx : exclusive c) (n : valtype)
    (d : CNameData) : exclusive (c.set n d) := by
  intro m hm hmd
  rcases List.mem_map.mp hm with ⟨p, hp, rfl⟩
  rcases mem_insertSorted hp with h | h
  · have hpn : p.1 = n := by rw [h]
    rw [hpn] at hmd
    exact (mem_eraseSet.mp hmd).2 rfl
  · exact hx p.1 (List.mem_map_of_mem Prod.fst h) (mem_eraseSet.mp hmd).1

/-- `remove` preserves the entries/deleted exclusivity invariant. -/
theorem exclusive_remove {c : CNameCache} (hx : exclusive c) (n : valtype) :
    exclusive (c.remove n) := by
  intro m hm hmd
  rcases List.mem_map.mp hm with ⟨p, hp, rfl⟩
  have hp' := List.mem_filter.mp hp
  have hne : p.1 ≠ n := by simpa using hp'.2
  rcases mem_insertSetSorted hmd with h | h
  · exact hne h
  · exact hx p.1 (List.mem_map_of_mem Prod.fst hp'.1) h

/-- Folding `set` over a list of entries preserves exclusivity. -/
theorem exclusive_foldl_set {l : List (valtype × CNameData)} :
    ∀ {c : CNameCache}, exclusive c →
      exclusive (l.foldl (fun c kv => CNameCache.set c kv.1 kv.2) c) := by
  induction l with
  | nil => intro c hx; exact hx
  | cons q rest ih => intro c hx; exact ih (exclusive_set hx q.1 q.2)

/-- Folding `remove` over a list of names preserves exclusivity. -/
theorem exclusive_foldl_remove {l : List valtype} :
    ∀ {c : CNameCache}, exclusive c →
      exclusive (l.foldl (fun c n => CNameCache.remove c n) c) := by
  induction l with
  | nil => intro c hx; exact hx
  | cons m rest ih => intro c hx; exact ih (exclusive_remove hx m)

/-- The history loop of the merge changes only the `history` field. -/
theorem applyHistory_fields {fh : Bool} :
    ∀ (l : List (valtype × CNameHistory)) (c c' : CNameCache),
      CNameCache.applyHistory fh l c = some c' →
      c'.entries = c.entries ∧ c'.deleted = c.deleted
        ∧ c'.expireIndex = c.expireIndex := by
  intro l
  induction l with
  | nil =>
    intro c c' h
    simp only [CNameCache.applyHistory, Option.some.injEq] at h
    subst h
    exact ⟨rfl, rfl, rfl⟩
  | cons q rest ih =>
    intro c c' h
    obtain ⟨qn, qh⟩ := q
    simp only [CNameCache.applyHistory] at h
    by_cases hfh : fh = true
    · rw [CNameCache.setHistory, if_pos hfh] at h
      have h' : CNameCache.applyHistory fh rest
          { c with history := insertSorted ltBytes qn qh c.history }
          = some c' := h
      exact ih { c with history := insertSorted ltBytes qn qh c.history } c' h'
    · rw [CNameCache.setHistory, if_neg hfh] at h
      exact Option.noConfusion h

/-- The history loop of the merge does not change the stored log of a name
absent from the merged list. -/
theorem applyHistory_lookup {fh : Bool} {n : valtype} :
    ∀ (l : List (valtype × CNameHistory)) (c c' : CNameCache),
      n ∉ l.map Prod.fst →
      CNameCache.applyHistory fh l c = some c' →
      lookupKey n c'.history = lookupKey n c.history := by
  intro l
  induction l with
  | nil =>
    intro c c' _ h
    simp only [CNameCache.applyHistory, Option.some.injEq] at h
    subst h
    rfl
  | cons q rest ih =>
    intro c c' hn h
    obtain ⟨qn, qh⟩ := q
    simp only [List.map_cons, List.mem_cons] at hn
    push_neg at hn
    simp only [CNameCache.applyHistory] at h
    by_cases hfh : fh = true
    · rw [CNameCache.setHistory, if_pos hfh] at h
      have h' : CNameCache.applyHistory fh rest
          { c with history := insertSorted ltBytes qn qh c.history }
          = some c' := h
      rw [ih { c with history := insertSorted ltBytes qn qh c.history } c' hn.2 h']
      exact lookup_insertSorted_ne ltBytes_total hn.1 qh c.history
    · rw [CNameCache.setHistory, if_neg hfh] at h
      exact Option.noConfusion h

/-- Folding `set` over entries that avoid `n` leaves every `n`-observation of
the cache unchanged (and never touches `history` or `expireIndex`). -/
theorem foldl_set_frame {n : valtype} :
    ∀ (l : List (valtype × CNameData)) (c : CNameCache),
      n ∉ l.map Prod.fst →
      (lookupKey n (l.foldl (fun c kv => CNameCache.set c kv.1 kv.2) c).entries
          = lookupKey n c.entries
        ∧ ((n ∈ (l.foldl (fun c kv => CNameCache.set c kv.1 kv.2) c).deleted)
            ↔ n ∈ c.deleted)
        ∧ (l.foldl (fun c kv => CNameCache.set c kv.1 kv.2) c).history
            = c.history
        ∧ (l.foldl (fun c kv => CNameCache.set c kv.1 kv.2) c).expireIndex
            = c.expireIndex) := by
  intro l
  induction l with
  | nil => intro c _; exact ⟨rfl, Iff.rfl, rfl, rfl⟩
  | cons q rest ih =>
    intro c hn
    obtain ⟨qn, qd⟩ := q
    simp only [List.map_cons, List.mem_cons] at hn
    push_neg at hn
    simp only [List.foldl_cons]
    have hstep := ih (CNameCache.set c qn qd) hn.2
    refine ⟨?_, ?_, hstep.2.2.1, hstep.2.2.2⟩
    · rw [hstep.1]
      exact lookup_insertSorted_ne ltBytes_total hn.1 qd c.entries
    · rw [hstep.2.1]
      exact ⟨fun hx => (mem_eraseSet.mp hx).1,
        fun hx => mem_eraseSet.mpr ⟨hx, hn.1⟩⟩

/-- Folding `remove` over names that avoid `n` leaves every `n`-observation of
the cache unchanged (and never touches `history` or `expireIndex`). -/
theorem foldl_remove_frame {n : valtype} :
    ∀ (l : List valtype) (c : CNameCache),
      n ∉ l →
      (lookupKey n (l.foldl (fun c m => CNameCache.remove c m) c).entries
          = lookupKey n c.entries
        ∧ ((n ∈ (l.foldl (fun c m => CNameCache.remove c m) c).deleted)
            ↔ n ∈ c.deleted)
        ∧ (l.foldl (fun c m => CNameCache.remove c m) c).history = c.history
        ∧ (l.foldl (fun c m => CNameCache.remove c m) c).expireIndex
            = c.expireIndex) := by
  intro l
  induction l with
  | nil => intro c _; exact ⟨rfl, Iff.rfl, rfl, rfl⟩
  | cons m rest ih =>
    intro c hn
    simp only [List.mem_cons] at hn
    push_neg at hn
    simp only [List.foldl_cons]
    have hstep := ih (CNameCache.remove c m) hn.2
    refine ⟨?_, ?_, hstep.2.2.1, hstep.2.2.2⟩
    · rw [hstep.1]
      exact lookup_eraseKey_ne hn.1 c.entries
    · rw [hstep.2.1]
      exact mem_insertSetSorted_ne hn.1 c.deleted

/-- Writing expiration-index pairs whose keys avoid `k` leaves the lookup of
`k` unchanged. -/
theorem foldl_expire_lookup {k : ExpireEntry} :
    ∀ (l : List (ExpireEntry × Bool)) (m : List (ExpireEntry × Bool)),
      (∀ p ∈ l, p.1 ≠ k) →
      lookupKey k (l.foldl (fun m kv => insertSorted ltExpire kv.1 kv.2 m) m)
        = lookupKey k m := by
  intro l
  induction l with
  | nil => intro m _; rfl
  | cons q rest ih =>
    intro m hk
    simp only [List.foldl_cons]
    rw [ih _ (fun p hp => hk p (List.mem_cons_of_mem _ hp))]
    exact lookup_insertSorted_ne ltExpire_total
      (Ne.symm (hk q (List.mem_cons_self _ _))) q.2 m

/-- A merge onto an exclusive target yields an exclusive cache. -/
theorem exclusive_applyTo {fh : Bool} {src tgt p : CNameCache}
    (hx : exclusive tgt) (h : CNameCache.applyTo fh src tgt = some p) :
    exclusive p := by
  have h1 : exclusive
      (src.entries.foldl (fun c kv => CNameCache.set c kv.1 kv.2) tgt) :=
    exclusive_foldl_set hx
  have h2 : exclusive
      (src.deleted.foldl (fun c n => CNameCache.remove c n)
        (src.entries.foldl (fun c kv => CNameCache.set c kv.1 kv.2) tgt)) :=
    exclusive_foldl_remove h1
  simp only [CNameCache.applyTo] at h
  cases hah : CNameCache.applyHistory fh src.history
      (src.deleted.foldl (fun c n => CNameCache.remove c n)
        (src.entries.foldl (fun c kv => CNameCache.set c kv.1 kv.2) tgt)) with
  | none =>
    rw [hah] at h
    exact Option.noConfusion h
  | some t3 =>
    rw [hah] at h
    injection h with h
    subst h
    have hf := applyHistory_fields _ _ _ hah
    intro m hm
    have hm' : m ∈ t3.entries.map Prod.fst := hm
    rw [hf.1] at hm'
    have hnd : m ∉ t3.deleted := by
      rw [hf.2.1]
      exact h2 m hm'
    exact hnd

/-- Every single interface operation preserves exclusivity. -/
theorem exclusive_runOp {fh : Bool} {c c' : CNameCache} {op : CacheOp}
    (hx : exclusive c) (h : runOp fh c op = some c') : exclusive c' := by
  cases op with
  | opSet n d =>
    simp only [runOp, Option.some.injEq] at h
    subst h
    exact exclusive_set hx n d
  | opRemove n =>
    simp only [runOp, Option.some.injEq] at h
    subst h
    exact exclusive_remove hx n
  | opSetHistory n hl =>
    simp only [runOp, CNameCache.setHistory] at h
    by_cases hfh : fh = true
    · rw [if_pos hfh] at h
      injection h with h
      subst h
      exact hx
    · rw [if_neg hfh] at h
      exact Option.noConfusion h
  | opAddExpire n ht =>
    simp only [runOp, Option.some.injEq] at h
    subst h
    exact hx
  | opRemoveExpire n ht =>
    simp only [runOp, Option.some.injEq] at h
    subst h
    exact hx
  | opUpdateNames ht names =>
    simp only [runOp] at h
    rcases Option.map_eq_some'.mp h with ⟨x, _, rfl⟩
    exact hx
  | opApplyFrom src =>
    exact exclusive_applyTo hx h

/-- Running any operation sequence preserves exclusivity. -/
theorem exclusive_run {fh : Bool} :
    ∀ (l : List CacheOp) (c0 c1 : CNameCache), exclusive c0 →
      run fh l c0 = some c1 → exclusive c1 := by
  intro l
  induction l with
  | nil =>
    intro c0 c1 hx h
    simp only [run, Option.some.injEq] at h
    subst h
    exact hx
  | cons op rest ih =>
    intro c0 c1 hx h
    simp only [run] at h
    cases hop : runOp fh c0 op with
    | none =>
      rw [hop] at h
      exact Option.noConfusion h
    | some c2 =>
      rw [hop] at h
      exact ih c2 c1 (exclusive_runOp hx hop) h

/- ** The claims ** -/

/-- C1: the terminal flush is determined solely by the cache's final
contents — two caches whose sorted `entries` and `deleted` containers hold
the same members (however they were produced) issue identical trie mutation
sequences, all `entries` as `Set` calls first, then all `deleted` as
`Delete` calls, each in ascending key order. -/
theorem C1_flush_determined_by_contents (c1 c2 : CNameCache) (e : Bool)
    (h1e : entriesSorted c1) (h2e : entriesSorted c2)
    (h1d : deletedSorted c1) (h2d : deletedSorted c2)
    (hent : ∀ p : valtype × CNameData, p ∈ c1.entries ↔ p ∈ c2.entries)
    (hdel : ∀ n : valtype, n ∈ c1.deleted ↔ n ∈ c2.deleted) :
    c1.applyToTrie e = c2.applyToTrie e
    ∧ c1.applyToTrie e
      = c1.entries.map (fun kv => TrieOp.setOp kv.1 kv.2 e)
        ++ c1.deleted.map (fun n => TrieOp.delOp n e) := by
  have hent_eq : c1.entries = c2.entries :=
    pairwise_eq_of_mem_iff (fun a b ha hb => ltBytes_asymm _ _ ha hb)
      _ _ h1e h2e hent
  have hdel_eq : c1.deleted = c2.deleted :=
    pairwise_eq_of_mem_iff (fun a b ha hb => ltBytes_asymm _ _ ha hb)
      _ _ h1d h2d hdel
  constructor
  · unfold CNameCache.applyToTrie
    rw [hent_eq, hdel_eq]
  · rfl

/-- Witness for C1: two caches built by different mutation orders flush to the
same trie call sequence. -/
theorem C1_flush_determined_by_contents_witness :
    cacheA.applyToTrie true = cacheB.applyToTrie true
    ∧ cacheA.applyToTrie true
      = cacheA.entries.map (fun kv => TrieOp.setOp kv.1 kv.2 true)
        ++ cacheA.deleted.map (fun n => TrieOp.delOp n true) :=
  C1_flush_determined_by_contents cacheA cacheB true (by decide) (by decide)
    (by decide) (by decide) (fun p => Iff.rfl) (fun n => Iff.rfl)

/-- C2: the terminal flush touches only name records — it is independent of
`history` and `expireIndex`, and issues exactly one `Set` per name in
`entries` and exactly one `Delete` per name in `deleted`. -/
theorem C2_flush_only_names (c : CNameCache) (e : Bool)
    (he : entriesSorted c) (hd : deletedSorted c) :
    (∀ hist xi,
      CNameCache.applyToTrie { c with history := hist, expireIndex := xi } e
        = c.applyToTrie e)
    ∧ (∀ n, (c.applyToTrie e).countP
          (fun op => op.isSetOp && decide (op.key = n))
        = if n ∈ c.entries.map Prod.fst then 1 else 0)
    ∧ (∀ n, (c.applyToTrie e).countP
          (fun op => !op.isSetOp && decide (op.key = n))
        = if n ∈ c.deleted then 1 else 0) := by
  have hkeys : (c.entries.map Prod.fst).Nodup :=
    nodup_of_pairwise_lt ltBytes_irrefl ((List.pairwise_map).mpr he)
  have hdelnd : c.deleted.Nodup := nodup_of_pairwise_lt ltBytes_irrefl hd
  refine ⟨fun hist xi => rfl, fun n => ?_, fun n => ?_⟩
  · unfold CNameCache.applyToTrie
    rw [List.countP_append]
    have hz : (c.deleted.map (fun m => TrieOp.delOp m e)).countP
        (fun op => op.isSetOp && decide (op.key = n)) = 0 := by
      rw [List.countP_eq_zero]
      intro op hop
      rcases List.mem_map.mp hop with ⟨m, hm, rfl⟩
      simp [TrieOp.isSetOp]
    rw [hz, Nat.add_zero, List.countP_map]
    have hcomp : ((fun op => op.isSetOp && decide (op.key = n)) ∘
        (fun kv : valtype × CNameData => TrieOp.setOp kv.1 kv.2 e))
        = (fun p : valtype × CNameData => decide (p.1 = n)) := by
      funext kv
      simp [Function.comp, TrieOp.isSetOp, TrieOp.key]
    rw [hcomp, countP_key_eq_of_nodup n c.entries hkeys]
    by_cases hm : n ∈ List.map Prod.fst c.entries
    · simp [hm]
    · simp [hm]
  · unfold CNameCache.applyToTrie
    rw [List.countP_append]
    have hz : (c.entries.map (fun kv => TrieOp.setOp kv.1 kv.2 e)).countP
        (fun op => !op.isSetOp && decide (op.key = n)) = 0 := by
      rw [List.countP_eq_zero]
      intro op hop
      rcases List.mem_map.mp hop with ⟨m, hm, rfl⟩
      simp [TrieOp.isSetOp]
    rw [hz, Nat.zero_add, List.countP_map]
    have hcomp : ((fun op => !op.isSetOp && decide (op.key = n)) ∘
        (fun m : valtype => TrieOp.delOp m e))
        = (fun m : valtype => decide (m = n)) := by
      funext m
      simp [Function.comp, TrieOp.isSetOp, TrieOp.key]
    rw [hcomp, countP_eq_of_nodup n c.deleted hdelnd]
    by_cases hm : n ∈ c.deleted
    · simp [hm]
    · simp [hm]

/-- Witness for C2: in the flush of a concrete cache the name `[1]` receives
exactly one `Set` call and the removed name `[3]` exactly one `Delete`. -/
theorem C2_flush_only_names_witness :
    (cacheA.applyToTrie true).countP
        (fun op => op.isSetOp && decide (op.key = [1])) = 1
    ∧ (cacheA.applyToTrie true).countP
        (fun op => !op.isSetOp && decide (op.key = [3])) = 1 := by
  constructor
  · rw [(C2_flush_only_names cacheA true (by decide) (by decide)).2.1 [1]]
    decide
  · rw [(C2_flush_only_names cacheA true (by decide) (by decide)).2.2 [3]]
    decide

/-- C3: deletion wins across a layer merge — a child layer that set then
removed `n`, merged onto a parent that set `n`, leaves the parent reporting
`n` as not found and carrying `n` in its deleted set, for all records. -/
theorem C3_deletion_wins (fh : Bool) (n : valtype) (r0 r1 : CNameData) :
    ∃ p, CNameCache.applyTo fh
        (CNameCache.remove (CNameCache.set CNameCache.empty n r1) n)
        (CNameCache.set CNameCache.empty n r0) = some p
      ∧ p.get n = none ∧ n ∈ p.deleted := by
  have hchild : CNameCache.remove (CNameCache.set CNameCache.empty n r1) n
      = ⟨[], [n], [], []⟩ := by
    simp [CNameCache.remove, CNameCache.set, CNameCache.empty, eraseKey,
      eraseSet, insertSorted, insertSetSorted]
  refine ⟨⟨[], [n], [], []⟩, ?_, rfl, List.mem_singleton.mpr rfl⟩
  rw [hchild]
  simp [CNameCache.applyTo, CNameCache.applyHistory, CNameCache.remove,
    CNameCache.set, CNameCache.empty, eraseKey, eraseSet, insertSorted,
    insertSetSorted]

/-- C5: `updateNamesForHeight` applies, in ascending key order, exactly the
toggles recorded at the requested height and no others; in particular
add-then-cancel at one height nets to absence, and markers at heights 50 and
100 are seen at exactly their own heights and not at height 99. -/
theorem C5_update_names_for_height (c : CNameCache) (h : Nat)
    (S : List valtype) (hs : expireSorted c) :
    c.updateNamesForHeight h S
      = some ((c.expireIndex.filter (fun p => decide (p.1.nHeight = h))).foldl
          CNameCache.toggleExpire S)
    ∧ (∀ n : valtype,
        (CNameCache.removeExpireIndex
            (CNameCache.addExpireIndex CNameCache.empty n 100) n 100
          |>.updateNamesForHeight 100 []) = some [])
    ∧ (∀ n : valtype,
        (CNameCache.addExpireIndex
            (CNameCache.addExpireIndex CNameCache.empty n 50) n 100
          |>.updateNamesForHeight 50 []) = some [n]
        ∧ (CNameCache.addExpireIndex
            (CNameCache.addExpireIndex CNameCache.empty n 50) n 100
          |>.updateNamesForHeight 100 []) = some [n]
        ∧ (CNameCache.addExpireIndex
            (CNameCache.addExpireIndex CNameCache.empty n 50) n 100
          |>.updateNamesForHeight 99 []) = some []) := by
  refine ⟨updateNamesForHeight_eq_filter hs S, fun n => ?_,
    fun n => ⟨?_, ?_, ?_⟩⟩
  · simp [CNameCache.removeExpireIndex, CNameCache.addExpireIndex,
      CNameCache.empty, CNameCache.updateNamesForHeight, CNameCache.updateLoop,
      CNameCache.toggleExpire, insertSorted, lowerBound, ltBytes_irrefl,
      ltExpire, ltBytes_nil_right, eraseSet]
  · simp [CNameCache.addExpireIndex, CNameCache.empty,
      CNameCache.updateNamesForHeight, CNameCache.updateLoop,
      CNameCache.toggleExpire, insertSorted, lowerBound, ltExpire,
      ltBytes_nil_right, insertSetSorted]
  · simp [CNameCache.addExpireIndex, CNameCache.empty,
      CNameCache.updateNamesForHeight, CNameCache.updateLoop,
      CNameCache.toggleExpire, insertSorted, lowerBound, ltExpire,
      ltBytes_nil_right, insertSetSorted]
  · simp [CNameCache.addExpireIndex, CNameCache.empty,
      CNameCache.updateNamesForHeight, CNameCache.updateLoop,
      CNameCache.toggleExpire, insertSorted, lowerBound, ltExpire,
      ltBytes_nil_right, insertSetSorted]

/-- Witness for C5 at a concrete sorted cache with two markers at height 50. -/
theorem C5_update_names_for_height_witness :
    cacheE.updateNamesForHeight 50 []
      = some ((cacheE.expireIndex.filter
          (fun p => decide (p.1.nHeight = 50))).foldl
            CNameCache.toggleExpire []) :=
  (C5_update_names_for_height cacheE 50 [] (by decide)).1

/-- C6: `get` resolves only against this layer's `entries`, ignoring
`deleted`, performs no mutation (it is a pure function of the cache), and
reports "not found" after a `remove` of the name. -/
theorem C6_get_semantics (c : CNameCache) (n : valtype)
    (he : entriesSorted c) :
    (∀ d, CNameCache.get { c with deleted := d } n = c.get n)
    ∧ (c.get n = none ↔ n ∉ c.entries.map Prod.fst)
    ∧ (∀ d, c.get n = some d ↔ (n, d) ∈ c.entries)
    ∧ (∀ c0 : CNameCache, (CNameCache.remove c0 n).get n = none) := by
  refine ⟨fun d => rfl, lookupKey_eq_none, fun d => ?_, fun c0 => ?_⟩
  · exact lookupKey_some_iff
      (nodup_of_pairwise_lt ltBytes_irrefl ((List.pairwise_map).mpr he))
  · exact lookup_eraseKey_self n c0.entries

/-- Witness for C6: lookups on a concrete cache, before and after removal. -/
theorem C6_get_semantics_witness :
    cacheA.get [1] = some recA
    ∧ (CNameCache.remove cacheA [1]).get [1] = none :=
  ⟨((C6_get_semantics cacheA [1] (by decide)).2.2.1 recA).mpr (by decide),
   (C6_get_semantics cacheA [1] (by decide)).2.2.2 cacheA⟩

/-- C7: history operations are gated by the process-wide flag — with it
disabled both `getHistory` and `setHistory` assert-fail; with it enabled a
`setHistory` followed by `getHistory` returns exactly the stored log. -/
theorem C7_history_gating (c : CNameCache) (n : valtype) (L : CNameHistory) :
    CNameCache.getHistory false c n = none
    ∧ CNameCache.setHistory false c n L = none
    ∧ (∀ c', CNameCache.setHistory true c n L = some c' →
        CNameCache.getHistory true c' n = some (some L)) := by
  refine ⟨rfl, rfl, fun c' hc' => ?_⟩
  have hc'' : { c with history := insertSorted ltBytes n L c.history } = c' := by
    simpa [CNameCache.setHistory] using hc'
  subst hc''
  unfold CNameCache.getHistory
  rw [if_pos rfl, lookup_insertSorted_self ltBytes_irrefl]

/-- Witness for C7: a concrete set-then-get round trip of a history log. -/
theorem C7_history_gating_witness :
    CNameCache.getHistory true
      { CNameCache.empty with
        history := insertSorted ltBytes [0] [recA] CNameCache.empty.history }
      [0] = some (some [recA]) :=
  (C7_history_gating CNameCache.empty [0] [recA]).2.2 _ rfl

/-- C8: `fromScript` fails fatally on a payload that is not update-class, and
on an update-class payload fully populates the record's value, height,
outpoint and address from the inputs, with no further validation. -/
theorem C8_fromScript_contract (h : Nat) (out : COutPoint) (s : CNameScript) :
    (s.anyUpdate = false → CNameData.fromScript h out s = none)
    ∧ (s.anyUpdate = true →
        CNameData.fromScript h out s = some ⟨s.opValue, h, out, s.address⟩) := by
  constructor
  · intro ha
    simp [CNameData.fromScript, ha]
  · intro ha
    simp [CNameData.fromScript, ha]

/-- Witness for C8 at concrete payloads of both kinds. -/
theorem C8_fromScript_contract_witness :
    CNameData.fromScript 7 ⟨3, 1⟩ ⟨false, [1], [2]⟩ = none
    ∧ CNameData.fromScript 7 ⟨3, 1⟩ ⟨true, [1], [2]⟩
      = some ⟨[1], 7, ⟨3, 1⟩, [2]⟩ :=
  ⟨(C8_fromScript_contract 7 ⟨3, 1⟩ ⟨false, [1], [2]⟩).1 rfl,
   (C8_fromScript_contract 7 ⟨3, 1⟩ ⟨true, [1], [2]⟩).2 rfl⟩

/-- C9: the scan's internal assertion is valid on a sorted index — the scan
never hits its failure branch, every entry at or after the lower bound for
`(h, "")` has height at least `h`, and `(h, "")` is below exactly the keys of
height below `h`. -/
theorem C9_scan_assertion_valid (c : CNameCache) (h : Nat) (S : List valtype)
    (hs : expireSorted c) :
    (c.updateNamesForHeight h S).isSome = true
    ∧ (∀ p ∈ lowerBound ltExpire ⟨h, []⟩ c.expireIndex, h ≤ p.1.nHeight)
    ∧ (∀ e : ExpireEntry, ltExpire e ⟨h, []⟩ = true ↔ e.nHeight < h) := by
  refine ⟨?_, lowerBound_height_ge c.expireIndex hs, fun e => ltExpire_seek⟩
  rw [updateNamesForHeight_eq_filter hs S]
  rfl

/-- Witness for C9 at a concrete sorted cache. -/
theorem C9_scan_assertion_valid_witness :
    (cacheE.updateNamesForHeight 50 []).isSome = true :=
  (C9_scan_assertion_valid cacheE 50 [] (by decide)).1

/-- C4: starting from the empty cache, any sequence of interface operations
(including merges into the cache) keeps `entries` and `deleted` mutually
exclusive; in particular `set` removes the name from `deleted` and `remove`
removes the name from `entries`. -/
theorem C4_exclusivity_invariant (fh : Bool) (ops : List CacheOp)
    (c : CNameCache) (h : run fh ops CNameCache.empty = some c) :
    exclusive c
    ∧ (∀ (c0 : CNameCache) (n : valtype) (r : CNameData),
        n ∉ (c0.set n r).deleted)
    ∧ (∀ (c0 : CNameCache) (n : valtype),
        n ∉ (c0.remove n).entries.map Prod.fst) := by
  refine ⟨exclusive_run ops CNameCache.empty c (fun n hn => by simp [CNameCache.empty] at hn) h,
    ?_, ?_⟩
  · intro c0 n r hmem
    exact (mem_eraseSet.mp hmem).2 rfl
  · intro c0 n hmem
    rcases List.mem_map.mp hmem with ⟨p, hp, rfl⟩
    have hpred := (List.mem_filter.mp hp).2
    simp at hpred

/-- Witness for C4 at a concrete operation sequence covering every kind of
mutation, including a merge. -/
theorem C4_exclusivity_invariant_witness : exclusive cacheR :=
  (C4_exclusivity_invariant false opsX cacheR (by decide)).1

/-- C10: layer merge is an overwrite, not a replacement — any name (and any
expiration key) occurring in none of the source's four containers is observed
unchanged in the merge target. -/
theorem C10_merge_frame (fh : Bool) (src tgt p : CNameCache) (n : valtype)
    (k : ExpireEntry) (happ : CNameCache.applyTo fh src tgt = some p)
    (hn : ¬ touches src n) (hk : ¬ touches src k.name) :
    p.get n = tgt.get n
    ∧ (n ∈ p.deleted ↔ n ∈ tgt.deleted)
    ∧ lookupKey n p.history = lookupKey n tgt.history
    ∧ lookupKey k p.expireIndex = lookupKey k tgt.expireIndex := by
  simp only [touches] at hn hk
  push_neg at hn hk
  obtain ⟨hn1, hn2, hn3, hn4⟩ := hn
  obtain ⟨-, -, -, hk4⟩ := hk
  have hkeys : ∀ q ∈ src.expireIndex, q.1 ≠ k :=
    fun q hq he => hk4 q hq (congrArg ExpireEntry.name he)
  have hframe1 := foldl_set_frame src.entries tgt hn1
  have hframe2 := foldl_remove_frame src.deleted
    (src.entries.foldl (fun c kv => CNameCache.set c kv.1 kv.2) tgt) hn2
  simp only [CNameCache.applyTo] at happ
  cases hah : CNameCache.applyHistory fh src.history
      (src.deleted.foldl (fun c n => CNameCache.remove c n)
        (src.entries.foldl (fun c kv => CNameCache.set c kv.1 kv.2) tgt)) with
  | none =>
    rw [hah] at happ
    exact Option.noConfusion happ
  | some t3 =>
    rw [hah] at happ
    injection happ with happ
    subst happ
    have hf := applyHistory_fields _ _ _ hah
    have hh := applyHistory_lookup _ _ _ hn3 hah
    refine ⟨?_, ?_, ?_, ?_⟩
    · show lookupKey n t3.entries = lookupKey n tgt.entries
      rw [hf.1, hframe2.1, hframe1.1]
    · show (n ∈ t3.deleted) ↔ n ∈ tgt.deleted
      rw [hf.2.1]
      exact hframe2.2.1.trans hframe1.2.1
    · show lookupKey n t3.history = lookupKey n tgt.history
      rw [hh, hframe2.2.2.1, hframe1.2.2.1]
    · show lookupKey k
          (src.expireIndex.foldl
            (fun m kv => insertSorted ltExpire kv.1 kv.2 m) t3.expireIndex)
        = lookupKey k tgt.expireIndex
      rw [foldl_expire_lookup src.expireIndex t3.expireIndex hkeys,
        hf.2.2, hframe2.2.2.2, hframe1.2.2.2]

/-- Witness for C10: merging `cacheE` onto `cacheA` leaves the untouched name
`[9]` and the untouched expiration key `(7, [9])` unchanged. -/
theorem C10_merge_frame_witness :
    cacheM.get [9] = cacheA.get [9]
    ∧ (([9] : valtype) ∈ cacheM.deleted ↔ ([9] : valtype) ∈ cacheA.deleted)
    ∧ lookupKey [9] cacheM.history = lookupKey [9] cacheA.history
    ∧ lookupKey ⟨7, [9]⟩ cacheM.expireIndex
      = lookupKey ⟨7, [9]⟩ cacheA.expireIndex :=
  C10_merge_frame false cacheE cacheA cacheM [9] ⟨7, [9]⟩ (by decide)
    (by decide) (by decide)

end Namecore
